import Mathlib

/-!
Verification of the mbuf core of twemproxy (src/nc_mbuf.c).

Shallow embedding notes.
An `mbuf` in the C code is a fixed-size memory chunk: a data region of
`MBUF_LEN` bytes followed by the `struct mbuf` header.  We flatten the
address space: each buffer's data region is a `List Nat` of bytes, and the
cursors `pos` (read cursor) and `last` (write cursor) are offsets into that
region, so `start = 0` and `end = data.length`.  The `id` field models the
physical identity of the chunk (its address); `magic` and the intrusive
`next` link are not modelled (ownership is modelled by the queues holding
the buffers).  The global free list `free_mbufq` / `nfree_mbufq` becomes an
explicit `PoolState`.  `nc_alloc` is modelled by an `Option Mbuf` argument:
`none` is allocation failure, `some f` is a fresh chunk with arbitrary
(garbage) contents.  C `ASSERT`s do not change state; they are modelled as
Boolean check functions (`mbuf_copy_checks`, `mbuf_split_safe`) or as
hypotheses of the theorems.
-/

namespace NcMbuf

/-- A buffer: the data region plus cursors (`struct mbuf`, flattened).
`pos` is the read cursor (first unconsumed byte), `last` the write cursor
(one past the last written byte); the region spans offsets `[0, data.length)`. -/
structure Mbuf where
  id : Nat
  data : List Nat
  pos : Nat
  last : Nat
deriving DecidableEq, Repr

/-- The global free pool: `free_mbufq` (head of list = head of the STAILQ)
and the counter `nfree_mbufq`. -/
structure PoolState where
  free_mbufq : List Mbuf
  nfree_mbufq : Nat
deriving DecidableEq, Repr

/-- Byte segment of length `n` starting at offset `off` of a region. -/
def seg (d : List Nat) (off n : Nat) : List Nat :=
  (d.drop off).take n

/-- `memcpy` into a region at offset `off`: overwrite `src.length` bytes. -/
def writeAt (d : List Nat) (off : Nat) (src : List Nat) : List Nat :=
  d.take off ++ src ++ d.drop (off + src.length)

/-- `mbuf_length`: length of data in mbuf, `last - pos`. -/
def mbuf_length (m : Mbuf) : Nat :=
  m.last - m.pos

/-- `mbuf_size`: remaining space for new data, `end - last`. -/
def mbuf_size (m : Mbuf) : Nat :=
  m.data.length - m.last

/-- Modelled from the spec: `mbuf_full` is declared in the missing header
nc_mbuf.h; the spec defines a buffer as full when
`available_capacity(buffer) = capacity_end - write_cursor` is zero. -/
def mbuf_full (m : Mbuf) : Bool :=
  mbuf_size m == 0

/-- `_mbuf_get`: take the head of the free queue if non-empty (decrementing
`nfree_mbufq`), otherwise allocate a fresh chunk via `nc_alloc` (the `alloc`
argument), which may fail.  Returns the raw mbuf and the new pool state. -/
def mbuf_get_raw (st : PoolState) (alloc : Option Mbuf) :
    Option (Mbuf × PoolState) :=
  match st.free_mbufq with
  | m :: rest => some (m, ⟨rest, st.nfree_mbufq - 1⟩)
  | [] =>
    match alloc with
    | none => none
    | some fresh => some (fresh, st)

/-- `mbuf_get`: acquire a buffer and reset it.  The C code recomputes
`start = buf` and `end = buf + MBUF_OFFSET` (in the flattened model these
are `0` and `data.length`, determined by the chunk itself) and sets
`pos = last = start`. -/
def mbuf_get (st : PoolState) (alloc : Option Mbuf) :
    Option (Mbuf × PoolState) :=
  match mbuf_get_raw st alloc with
  | none => none
  | some (m, st') => some ({ m with pos := 0, last := 0 }, st')

/-- `mbuf_put`: push the buffer at the head of the free queue and increment
`nfree_mbufq`.  Data is not cleared. -/
def mbuf_put (st : PoolState) (m : Mbuf) : PoolState :=
  { free_mbufq := m :: st.free_mbufq, nfree_mbufq := st.nfree_mbufq + 1 }

/-- `mbuf_copy`: copy `src` into the buffer at the write cursor and advance
it.  The C code returns immediately when `n == 0`, before any assertion. -/
def mbuf_copy (m : Mbuf) (src : List Nat) : Mbuf :=
  if src.length = 0 then m
  else { m with data := writeAt m.data m.last src,
                last := m.last + src.length }

/-- The `ASSERT`s guarding `mbuf_copy`, in the order the C code evaluates
them: a zero-length copy returns before any check; otherwise the buffer
must not be full, must have room for `n` bytes, and the source must not
overlap the buffer (`no_overlap`, a fact about addresses that the flattened
model takes as a Boolean input). -/
def mbuf_copy_checks (m : Mbuf) (n : Nat) (no_overlap : Bool) : Bool :=
  n == 0 || (!(mbuf_full m) && decide (n ≤ mbuf_size m) && no_overlap)

/-- `mbuf_mcopy`: copy the literal-table entry for `copy` into the buffer.
The table `mcopy_strings` is built from the external `MCOPY_CODEC` macro
(not part of this core), so it is a parameter `mstrings`. -/
def mbuf_mcopy (mstrings : Nat → List Nat) (m : Mbuf) (copy : Nat) : Mbuf :=
  mbuf_copy m (mstrings copy)

/-- `mbuf_split`: split queue `q` at offset `p` inside its tail buffer.
Returns the triple (returned `nbuf` or `NULL`, queue contents after the
call, pool state after the call), modelling the in-place mutation of the
C version.  The `ASSERT`s (`q` non-empty, `mbuf->pos ≤ p ≤ mbuf->last`)
are hypotheses of the theorems; on the empty queue the model returns the
world unchanged (in C this state is unreachable past the assertion). -/
def mbuf_split (mstrings : Nat → List Nat) (st : PoolState)
    (alloc : Option Mbuf) (q : List Mbuf) (p : Nat)
    (headcopy tailcopy : Nat) : Option Mbuf × List Mbuf × PoolState :=
  match q.getLast? with
  | none => (none, q, st)
  | some mbuf =>
    match mbuf_get st alloc with
    | none => (none, q, st)
    | some (nbuf, st') =>
      let nbuf1 := mbuf_mcopy mstrings nbuf headcopy
      let sz := mbuf.last - p
      let nbuf2 := mbuf_copy nbuf1 (seg mbuf.data p sz)
      let mbuf1 : Mbuf := { mbuf with last := p }
      let mbuf2 := mbuf_mcopy mstrings mbuf1 tailcopy
      (some nbuf2, q.dropLast ++ [mbuf2], st')

/-- The `mbuf_copy` assertions encountered during `mbuf_split`, mirroring
its body: `true` iff no fatal assertion fires.  An empty queue is itself a
fatal assertion (`false`); a failed acquisition returns before any copy
(`true`: recoverable, not fatal).  Sources are always disjoint from the
destination buffer (different physical chunks / the literal table), so
`no_overlap` is `true` at each call. -/
def mbuf_split_safe (mstrings : Nat → List Nat) (st : PoolState)
    (alloc : Option Mbuf) (q : List Mbuf) (p : Nat)
    (headcopy tailcopy : Nat) : Bool :=
  match q.getLast? with
  | none => false
  | some mbuf =>
    match mbuf_get st alloc with
    | none => true
    | some (nbuf, _) =>
      let nbuf1 := mbuf_mcopy mstrings nbuf headcopy
      let sz := mbuf.last - p
      let mbuf1 : Mbuf := { mbuf with last := p }
      mbuf_copy_checks nbuf (mstrings headcopy).length true &&
      mbuf_copy_checks nbuf1 sz true &&
      mbuf_copy_checks mbuf1 (mstrings tailcopy).length true

/-- `mbuf_init`: empty free queue, zero counter. -/
def mbuf_init : PoolState :=
  ⟨[], 0⟩

/-- One iteration of the `mbuf_deinit` loop: remove the queue head, free it
(second component: the chunk handed back to the allocator), decrement the
counter.  `none` when the queue is empty (loop exit). -/
def mbuf_deinit_step (st : PoolState) : Option (PoolState × Mbuf) :=
  match st.free_mbufq with
  | [] => none
  | m :: rest => some (⟨rest, st.nfree_mbufq - 1⟩, m)

/-- The `mbuf_deinit` loop over the queue: final pool state, plus the list
of chunks returned to the allocator in the order they were freed. -/
def mbuf_deinit_go : List Mbuf → Nat → PoolState × List Mbuf
  | [], n => (⟨[], n⟩, [])
  | m :: rest, n =>
    let r := mbuf_deinit_go rest (n - 1)
    (r.1, m :: r.2)

/-- `mbuf_deinit`: drain the free queue, freeing every buffer. -/
def mbuf_deinit (st : PoolState) : PoolState × List Mbuf :=
  mbuf_deinit_go st.free_mbufq st.nfree_mbufq

/-- Occupied contents of a buffer: the bytes from `pos` to `last`. -/
def mbuf_contents (m : Mbuf) : List Nat :=
  seg m.data m.pos (mbuf_length m)

/-- The free-pool counter invariant: `nfree_mbufq` equals the queue length. -/
def PoolInv (st : PoolState) : Prop :=
  st.nfree_mbufq = st.free_mbufq.length

/-! ## Basic algebra of `mbuf_copy` -/

theorem mbuf_copy_nil (m : Mbuf) : mbuf_copy m [] = m := by
  simp [mbuf_copy]

theorem mbuf_copy_id (m : Mbuf) (src : List Nat) :
    (mbuf_copy m src).id = m.id := by
  unfold mbuf_copy; split <;> rfl

theorem mbuf_copy_pos (m : Mbuf) (src : List Nat) :
    (mbuf_copy m src).pos = m.pos := by
  unfold mbuf_copy; split <;> rfl

theorem mbuf_copy_last (m : Mbuf) (src : List Nat) :
    (mbuf_copy m src).last = m.last + src.length := by
  unfold mbuf_copy; split
  · next h => simp [h]
  · rfl

theorem writeAt_length (d : List Nat) (off : Nat) (src : List Nat)
    (h : off ≤ d.length) :
    (writeAt d off src).length = max d.length (off + src.length) := by
  simp [writeAt]
  omega

theorem mbuf_copy_data_length (m : Mbuf) (src : List Nat)
    (h : m.last ≤ m.data.length) :
    (mbuf_copy m src).data.length = max m.data.length (m.last + src.length) := by
  unfold mbuf_copy; split
  · next h0 => simp [h0]; omega
  · simp [writeAt_length _ _ _ h]

theorem mbuf_copy_last_le (m : Mbuf) (src : List Nat)
    (h : m.last ≤ m.data.length) :
    (mbuf_copy m src).last ≤ (mbuf_copy m src).data.length := by
  rw [mbuf_copy_last, mbuf_copy_data_length m src h]
  omega

theorem mbuf_contents_copy (m : Mbuf) (src : List Nat)
    (hpl : m.pos ≤ m.last) (hld : m.last ≤ m.data.length) :
    mbuf_contents (mbuf_copy m src) = mbuf_contents m ++ src := by
  by_cases h0 : src.length = 0
  · rw [List.length_eq_zero] at h0
    subst h0
    simp [mbuf_copy_nil]
  · unfold mbuf_copy
    rw [if_neg h0]
    unfold mbuf_contents mbuf_length seg writeAt
    simp only
    have hA : (List.take m.last m.data).length = m.last := by
      rw [List.length_take]; omega
    have hAS : (List.take m.last m.data ++ src).length = m.last + src.length := by
      rw [List.length_append, hA]
    rw [List.drop_append_eq_append_drop, hAS,
        Nat.sub_eq_zero_of_le (by omega : m.pos ≤ m.last + src.length),
        List.drop_zero]
    rw [List.drop_append_eq_append_drop, hA, Nat.sub_eq_zero_of_le hpl,
        List.drop_zero, List.drop_take]
    have hA2 : (List.take (m.last - m.pos) (List.drop m.pos m.data) ++ src).length
        = m.last - m.pos + src.length := by
      rw [List.length_append, List.length_take, List.length_drop]; omega
    rw [List.take_append_eq_append_take, hA2,
        Nat.sub_eq_zero_of_le
          (by omega : m.last + src.length - m.pos ≤ m.last - m.pos + src.length),
        List.take_zero, List.append_nil]
    have hk : m.last + src.length - m.pos
        = (List.take (m.last - m.pos) (List.drop m.pos m.data) ++ src).length := by
      rw [hA2]; omega
    rw [hk, List.take_length]

theorem mbuf_copy_eq_writeAt (m : Mbuf) (src : List Nat) :
    mbuf_copy m src
      = { m with data := writeAt m.data m.last src,
                 last := m.last + src.length } := by
  unfold mbuf_copy; split
  · next h =>
    rw [List.length_eq_zero] at h
    subst h
    simp [writeAt]
  · rfl

/-! ## Inversion of `mbuf_get` -/

theorem mbuf_get_raw_inv (st : PoolState) (alloc : Option Mbuf) (m0 : Mbuf)
    (st' : PoolState) (h : mbuf_get_raw st alloc = some (m0, st')) :
    (∃ rest, st.free_mbufq = m0 :: rest
        ∧ st' = ⟨rest, st.nfree_mbufq - 1⟩) ∨
    (st.free_mbufq = [] ∧ alloc = some m0 ∧ st' = st) := by
  unfold mbuf_get_raw at h
  cases hq : st.free_mbufq with
  | nil =>
    rw [hq] at h
    cases alloc with
    | none => simp at h
    | some fresh =>
      simp at h
      exact Or.inr ⟨rfl, by rw [h.1], h.2.symm⟩
  | cons a rest =>
    rw [hq] at h
    simp at h
    exact Or.inl ⟨rest, by rw [h.1], h.2.symm⟩

theorem mbuf_get_inv (st : PoolState) (alloc : Option Mbuf) (m : Mbuf)
    (st' : PoolState) (h : mbuf_get st alloc = some (m, st')) :
    ∃ m0, m = { m0 with pos := 0, last := 0 }
      ∧ mbuf_get_raw st alloc = some (m0, st') := by
  unfold mbuf_get at h
  cases h2 : mbuf_get_raw st alloc with
  | none => rw [h2] at h; simp at h
  | some pr =>
    rw [h2] at h
    simp at h
    exact ⟨pr.1, h.1.symm, by rw [← h.2]⟩

theorem mbuf_get_reset_cursors (st : PoolState) (alloc : Option Mbuf) (m : Mbuf)
    (st' : PoolState) (h : mbuf_get st alloc = some (m, st')) :
    m.pos = 0 ∧ m.last = 0 := by
  obtain ⟨m0, hm, -⟩ := mbuf_get_inv st alloc m st' h
  rw [hm]
  exact ⟨rfl, rfl⟩

theorem mbuf_get_eq_none_iff (st : PoolState) (alloc : Option Mbuf) :
    mbuf_get st alloc = none ↔ st.free_mbufq = [] ∧ alloc = none := by
  unfold mbuf_get mbuf_get_raw
  cases hq : st.free_mbufq with
  | nil => cases alloc <;> simp
  | cons a rest => simp

/-! ## Unfolding of `mbuf_split` on the success path -/

theorem mbuf_split_eq (mstrings : Nat → List Nat) (st : PoolState)
    (alloc : Option Mbuf) (q : List Mbuf) (tb : Mbuf) (p : Nat) (hc tc : Nat)
    (nb : Mbuf) (st' : PoolState)
    (hq : q.getLast? = some tb) (hget : mbuf_get st alloc = some (nb, st')) :
    mbuf_split mstrings st alloc q p hc tc =
      (some (mbuf_copy (mbuf_copy nb (mstrings hc))
               (seg tb.data p (tb.last - p))),
       q.dropLast ++ [mbuf_copy { tb with last := p } (mstrings tc)],
       st') := by
  unfold mbuf_split
  rw [hq, hget]
  rfl

/-! ## The `mbuf_deinit` loop -/

theorem mbuf_deinit_go_eq (l : List Mbuf) (n : Nat) :
    mbuf_deinit_go l n = (⟨[], n - l.length⟩, l) := by
  induction l generalizing n with
  | nil => rfl
  | cons m rest ih =>
    unfold mbuf_deinit_go
    rw [ih (n - 1)]
    simp only [List.length_cons]
    have : n - 1 - rest.length = n - (rest.length + 1) := by omega
    rw [this]

/-! ## Claim theorems -/

/-- C4: every buffer successfully returned by `mbuf_get`, whether recycled
from the free queue or freshly allocated, has `pos = last = 0` (logically
empty, `mbuf_length = 0`) and a data region of exactly the fixed configured
length `MBUF_LEN`. -/
theorem mbuf_get_returns_reset_buffer (MBUF_LEN : Nat) (st : PoolState)
    (alloc : Option Mbuf) (m : Mbuf) (st' : PoolState)
    (hpool : ∀ b ∈ st.free_mbufq, b.data.length = MBUF_LEN)
    (halloc : ∀ b, alloc = some b → b.data.length = MBUF_LEN)
    (hget : mbuf_get st alloc = some (m, st')) :
    m.pos = 0 ∧ m.last = 0 ∧ mbuf_length m = 0
      ∧ m.data.length = MBUF_LEN := by
  obtain ⟨m0, hm, hraw⟩ := mbuf_get_inv st alloc m st' hget
  have hdata : m.data = m0.data := by rw [hm]
  have hlen : m0.data.length = MBUF_LEN := by
    rcases mbuf_get_raw_inv st alloc m0 st' hraw with ⟨rest, hq, -⟩ | ⟨-, ha, -⟩
    · exact hpool m0 (by rw [hq]; exact List.mem_cons_self m0 rest)
    · exact halloc m0 ha
  subst hm
  exact ⟨rfl, rfl, rfl, by rw [hdata] at *; exact hlen⟩

/-- C4 witness: acquiring from a pool holding one 4-byte buffer with stale
cursors yields a reset buffer of the configured length. -/
theorem mbuf_get_returns_reset_buffer_witness :
    (Mbuf.mk 7 [3, 1, 4, 1] 0 0).pos = 0 ∧
    (Mbuf.mk 7 [3, 1, 4, 1] 0 0).last = 0 ∧
    mbuf_length (Mbuf.mk 7 [3, 1, 4, 1] 0 0) = 0 ∧
    (Mbuf.mk 7 [3, 1, 4, 1] 0 0).data.length = 4 :=
  mbuf_get_returns_reset_buffer 4 ⟨[⟨7, [3, 1, 4, 1], 2, 3⟩], 1⟩ none
    ⟨7, [3, 1, 4, 1], 0, 0⟩ ⟨[], 0⟩ (by decide)
    (fun _ hb => Option.noConfusion hb) rfl

/-- C5: the free pool is LIFO: `mbuf_put b` then `mbuf_get` yields the very
same physical buffer `b` (with cursors reset, data untouched) and returns
the pool to its exact prior state (count included); putting `b1` then `b2`
and getting twice yields `b2` then `b1`. -/
theorem mbuf_put_get_lifo (st : PoolState) (b b1 b2 : Mbuf)
    (alloc alloc2 : Option Mbuf) :
    mbuf_get (mbuf_put st b) alloc
        = some ({ b with pos := 0, last := 0 }, st) ∧
    mbuf_get (mbuf_put (mbuf_put st b1) b2) alloc
        = some ({ b2 with pos := 0, last := 0 }, mbuf_put st b1) ∧
    mbuf_get (mbuf_put st b1) alloc2
        = some ({ b1 with pos := 0, last := 0 }, st) :=
  ⟨rfl, rfl, rfl⟩

/-- C10: a zero-length `mbuf_copy` returns before any assertion is
evaluated: it leaves any buffer unchanged and passes the checks even when
the buffer is full or the source overlaps the buffer's region
(`no_overlap = false`). -/
theorem mbuf_copy_zero_noop (m : Mbuf) (no_overlap : Bool) :
    mbuf_copy m [] = m ∧ mbuf_copy_checks m 0 no_overlap = true :=
  ⟨mbuf_copy_nil m, by simp [mbuf_copy_checks]⟩

/-- C6: under the stated preconditions (buffer not full, `n` bytes of room,
well-formed cursor), `mbuf_copy` advances the write cursor by exactly
`src.length`, and leaves the read cursor, the region bounds (length) and
the identity unchanged; a zero-length copy is a no-op. -/
theorem mbuf_copy_cursor_effect (m : Mbuf) (src : List Nat)
    (_hfull : mbuf_full m = false) (hn : src.length ≤ mbuf_size m)
    (hwf : m.last ≤ m.data.length) :
    (mbuf_copy m src).last = m.last + src.length ∧
    (mbuf_copy m src).pos = m.pos ∧
    (mbuf_copy m src).data.length = m.data.length ∧
    (mbuf_copy m src).id = m.id ∧
    mbuf_copy m [] = m := by
  refine ⟨mbuf_copy_last m src, mbuf_copy_pos m src, ?_,
    mbuf_copy_id m src, mbuf_copy_nil m⟩
  rw [mbuf_copy_data_length m src hwf]
  unfold mbuf_size at hn
  omega

/-- C6 witness: copying one byte into a buffer with room advances `last`
from 2 to 3 and changes nothing else. -/
theorem mbuf_copy_cursor_effect_witness :
    (mbuf_copy ⟨0, [9, 9, 9, 9], 1, 2⟩ [5]).last = 2 + 1 ∧
    (mbuf_copy ⟨0, [9, 9, 9, 9], 1, 2⟩ [5]).pos = 1 ∧
    (mbuf_copy ⟨0, [9, 9, 9, 9], 1, 2⟩ [5]).data.length = 4 ∧
    (mbuf_copy ⟨0, [9, 9, 9, 9], 1, 2⟩ [5]).id = 0 ∧
    mbuf_copy ⟨0, [9, 9, 9, 9], 1, 2⟩ [] = ⟨0, [9, 9, 9, 9], 1, 2⟩ :=
  mbuf_copy_cursor_effect ⟨0, [9, 9, 9, 9], 1, 2⟩ [5]
    (by decide) (by decide) (by decide)

/-- C2: with a non-empty queue, `mbuf_split` fails exactly when buffer
acquisition fails (free queue empty and the allocator exhausted), and in
that case it returns the queue and the pool state completely unmodified. -/
theorem mbuf_split_alloc_failure (mstrings : Nat → List Nat) (st : PoolState)
    (alloc : Option Mbuf) (q : List Mbuf) (p : Nat) (hc tc : Nat)
    (hq : q ≠ []) :
    ((mbuf_split mstrings st alloc q p hc tc).1 = none
        ↔ (st.free_mbufq = [] ∧ alloc = none)) ∧
    (st.free_mbufq = [] → alloc = none →
        mbuf_split mstrings st alloc q p hc tc = (none, q, st)) := by
  obtain ⟨tb, htb⟩ : ∃ tb, q.getLast? = some tb := by
    cases hql : q.getLast? with
    | none => exact absurd (List.getLast?_eq_none_iff.mp hql) hq
    | some tb => exact ⟨tb, rfl⟩
  cases hget : mbuf_get st alloc with
  | none =>
    have hfail := (mbuf_get_eq_none_iff st alloc).mp hget
    have hsplit : mbuf_split mstrings st alloc q p hc tc = (none, q, st) := by
      unfold mbuf_split
      rw [htb, hget]
    exact ⟨by rw [hsplit]; simpa using hfail, fun _ _ => hsplit⟩
  | some pr =>
    have hne : ¬(st.free_mbufq = [] ∧ alloc = none) := by
      intro hx
      rw [(mbuf_get_eq_none_iff st alloc).mpr hx] at hget
      exact Option.noConfusion hget
    have hsplit := mbuf_split_eq mstrings st alloc q tb p hc tc pr.1 pr.2 htb
      (by rw [hget])
    constructor
    · rw [hsplit]
      simpa using hne
    · intro h1 h2
      exact absurd ⟨h1, h2⟩ hne

/-- C2 witness: splitting a one-buffer queue with an empty pool and a
failing allocator returns no buffer and leaves the world unchanged. -/
theorem mbuf_split_alloc_failure_witness :
    mbuf_split (fun _ => [1]) ⟨[], 0⟩ none [⟨1, [7, 8], 0, 2⟩] 1 0 0
      = (none, [⟨1, [7, 8], 0, 2⟩], ⟨[], 0⟩) :=
  (mbuf_split_alloc_failure (fun _ => [1]) ⟨[], 0⟩ none [⟨1, [7, 8], 0, 2⟩]
      1 0 0 (by decide)).2 rfl rfl

/-- C7: the counter `nfree_mbufq` always equals the free-queue length: the
invariant holds after `mbuf_init` and is preserved by every `mbuf_get`
(which decrements both when recycling and touches neither on fresh
allocation), every `mbuf_put` (which increments both), and every iteration
of the `mbuf_deinit` loop. -/
theorem pool_count_invariant :
    PoolInv mbuf_init ∧
    (∀ st alloc m st', PoolInv st →
        mbuf_get st alloc = some (m, st') → PoolInv st') ∧
    (∀ st alloc m st', mbuf_get st alloc = some (m, st') →
        st.free_mbufq ≠ [] →
        st'.nfree_mbufq = st.nfree_mbufq - 1 ∧
        st'.free_mbufq.length = st.free_mbufq.length - 1) ∧
    (∀ st alloc m st', mbuf_get st alloc = some (m, st') →
        st.free_mbufq = [] → st' = st) ∧
    (∀ st m, PoolInv st → PoolInv (mbuf_put st m)) ∧
    (∀ st m, (mbuf_put st m).nfree_mbufq = st.nfree_mbufq + 1 ∧
        (mbuf_put st m).free_mbufq.length = st.free_mbufq.length + 1) ∧
    (∀ st st' m, PoolInv st →
        mbuf_deinit_step st = some (st', m) → PoolInv st') := by
  refine ⟨rfl, ?_, ?_, ?_, ?_, ?_, ?_⟩
  · intro st alloc m st' hinv hget
    obtain ⟨m0, -, hraw⟩ := mbuf_get_inv st alloc m st' hget
    rcases mbuf_get_raw_inv st alloc m0 st' hraw with
      ⟨rest, hql, hst'⟩ | ⟨-, -, hst'⟩
    · subst hst'
      unfold PoolInv at *
      rw [hql] at hinv
      simp at hinv ⊢
      omega
    · subst hst'; exact hinv
  · intro st alloc m st' hget hne
    obtain ⟨m0, -, hraw⟩ := mbuf_get_inv st alloc m st' hget
    rcases mbuf_get_raw_inv st alloc m0 st' hraw with
      ⟨rest, hql, hst'⟩ | ⟨hql, -, -⟩
    · subst hst'
      rw [hql]
      simp
    · exact absurd hql hne
  · intro st alloc m st' hget hql
    obtain ⟨m0, -, hraw⟩ := mbuf_get_inv st alloc m st' hget
    rcases mbuf_get_raw_inv st alloc m0 st' hraw with
      ⟨rest, hql2, -⟩ | ⟨-, -, hst'⟩
    · rw [hql] at hql2; exact List.noConfusion hql2
    · exact hst'
  · intro st m hinv
    unfold PoolInv mbuf_put at *
    simp [hinv]
  · intro st m
    exact ⟨rfl, rfl⟩
  · intro st st' m hinv hstep
    unfold mbuf_deinit_step at hstep
    cases hql : st.free_mbufq with
    | nil => rw [hql] at hstep; exact Option.noConfusion hstep
    | cons a rest =>
      rw [hql] at hstep
      simp at hstep
      unfold PoolInv at *
      rw [hql] at hinv
      rw [← hstep.1]
      simp at hinv ⊢
      omega

/-- C7 witness: one `mbuf_put` on the freshly initialized pool preserves
the counter invariant. -/
theorem pool_count_invariant_witness :
    PoolInv (mbuf_put mbuf_init ⟨0, [], 0, 0⟩) :=
  pool_count_invariant.2.2.2.2.1 mbuf_init ⟨0, [], 0, 0⟩ rfl

/-- C8: under the counter invariant, `mbuf_deinit` empties the free queue,
brings the count to exactly 0, hands every pooled buffer (in order) back to
the allocator, and is a no-op on an already-empty pool. -/
theorem mbuf_deinit_drains (st : PoolState) (hinv : PoolInv st) :
    (mbuf_deinit st).1.free_mbufq = [] ∧
    (mbuf_deinit st).1.nfree_mbufq = 0 ∧
    (mbuf_deinit st).2 = st.free_mbufq ∧
    (st.free_mbufq = [] → mbuf_deinit st = (st, [])) := by
  unfold mbuf_deinit
  rw [mbuf_deinit_go_eq]
  unfold PoolInv at hinv
  refine ⟨rfl, by simp; omega, rfl, ?_⟩
  intro hql
  rw [hql]
  have h0 : st.nfree_mbufq = 0 := by rw [hinv, hql]; rfl
  have : st = ⟨[], 0⟩ := by
    cases st with
    | mk f n =>
      simp only at hql h0
      rw [hql, h0]
  rw [this]
  rfl

/-- Preparatory step: the tail-literal copy after truncation, written as an
explicit record. -/
theorem mbuf_copy_truncated (tb : Mbuf) (p : Nat) (src : List Nat) :
    mbuf_copy { tb with last := p } src
      = { tb with data := writeAt tb.data p src, last := p + src.length } := by
  rw [mbuf_copy_eq_writeAt]

/-- C1: a successful `mbuf_split` of a non-empty queue at a position `p`
between the tail's cursors returns a new buffer whose contents are the head
literal followed by the bytes of the original tail from `p` to its old
write cursor; the original tail's write cursor is set to `p` and the tail
literal is then written at `p`; the tail's read cursor, the other buffers
and the queue order are unchanged. -/
theorem mbuf_split_effect (mstrings : Nat → List Nat) (st : PoolState)
    (alloc : Option Mbuf) (q : List Mbuf) (tb : Mbuf) (p : Nat) (hc tc : Nat)
    (nb : Mbuf) (st' : PoolState)
    (hq : q.getLast? = some tb)
    (hget : mbuf_get st alloc = some (nb, st'))
    (_h1 : tb.pos ≤ p) (_h2 : p ≤ tb.last)
    (_h3 : tb.last ≤ tb.data.length) :
    ∃ t : Mbuf,
      mbuf_split mstrings st alloc q p hc tc
        = (some t,
           q.dropLast ++ [{ tb with data := writeAt tb.data p (mstrings tc),
                                    last := p + (mstrings tc).length }],
           st') ∧
      mbuf_contents t = mstrings hc ++ seg tb.data p (tb.last - p) ∧
      t.pos = 0 ∧ t.id = nb.id := by
  obtain ⟨hp0, hl0⟩ := mbuf_get_reset_cursors st alloc nb st' hget
  have hsplit := mbuf_split_eq mstrings st alloc q tb p hc tc nb st' hq hget
  refine ⟨mbuf_copy (mbuf_copy nb (mstrings hc)) (seg tb.data p (tb.last - p)),
    ?_, ?_, ?_, ?_⟩
  · rw [hsplit, mbuf_copy_truncated tb p (mstrings tc)]
  · have hwf1 : nb.pos ≤ nb.last := by rw [hp0, hl0]
    have hwf2 : nb.last ≤ nb.data.length := by
      rw [hl0]; exact Nat.zero_le _
    have c0 : mbuf_contents nb = [] := by
      unfold mbuf_contents mbuf_length seg
      rw [hp0, hl0]
      simp
    have hwf3 : (mbuf_copy nb (mstrings hc)).pos
        ≤ (mbuf_copy nb (mstrings hc)).last := by
      rw [mbuf_copy_pos, hp0]; exact Nat.zero_le _
    rw [mbuf_contents_copy _ _ hwf3 (mbuf_copy_last_le nb _ hwf2),
        mbuf_contents_copy nb _ hwf1 hwf2, c0]
    simp
  · rw [mbuf_copy_pos, mbuf_copy_pos, hp0]
  · rw [mbuf_copy_id, mbuf_copy_id]

/-- C1 witness: splitting the queue holding the buffer with bytes
`[10, 11, 12, 13]` (`pos = 1`, `last = 3`) at `p = 2`, with head literal
`[7]` and tail literal `[9]`, yields a new buffer reading `[7, 12]` and
rewrites the tail in place to end with `[9]` at offset 2. -/
theorem mbuf_split_effect_witness :
    ∃ t : Mbuf,
      mbuf_split (fun c => [c]) ⟨[⟨5, [0, 0, 0, 0], 3, 3⟩], 1⟩ none
          [⟨1, [10, 11, 12, 13], 1, 3⟩] 2 7 9
        = (some t,
           ([⟨1, [10, 11, 12, 13], 1, 3⟩] : List Mbuf).dropLast ++
             [{ (⟨1, [10, 11, 12, 13], 1, 3⟩ : Mbuf) with
                  data := writeAt [10, 11, 12, 13] 2 [9],
                  last := 2 + 1 }],
           ⟨[], 0⟩) ∧
      mbuf_contents t = [7] ++ seg [10, 11, 12, 13] 2 (3 - 2) ∧
      t.pos = 0 ∧ t.id = 5 :=
  mbuf_split_effect (fun c => [c]) ⟨[⟨5, [0, 0, 0, 0], 3, 3⟩], 1⟩ none
    [⟨1, [10, 11, 12, 13], 1, 3⟩] ⟨1, [10, 11, 12, 13], 1, 3⟩ 2 7 9
    ⟨5, [0, 0, 0, 0], 0, 0⟩ ⟨[], 0⟩ (by decide) rfl
    (by decide) (by decide) (by decide)

/-- C3: a successful split preserves the total logical byte count: the
occupied length of the rewritten tail minus the tail-literal length, plus
the occupied length of the new buffer minus the head-literal length,
equals the occupied length of the original tail buffer. -/
theorem mbuf_split_preserves_byte_count (mstrings : Nat → List Nat)
    (st : PoolState) (alloc : Option Mbuf) (q : List Mbuf) (tb : Mbuf)
    (p : Nat) (hc tc : Nat) (nb : Mbuf) (st' : PoolState)
    (hq : q.getLast? = some tb)
    (hget : mbuf_get st alloc = some (nb, st'))
    (h1 : tb.pos ≤ p) (h2 : p ≤ tb.last) (h3 : tb.last ≤ tb.data.length) :
    ∃ t tb2 : Mbuf,
      mbuf_split mstrings st alloc q p hc tc
        = (some t, q.dropLast ++ [tb2], st') ∧
      (mbuf_length tb2 - (mstrings tc).length)
          + (mbuf_length t - (mstrings hc).length)
        = mbuf_length tb := by
  obtain ⟨hp0, hl0⟩ := mbuf_get_reset_cursors st alloc nb st' hget
  refine ⟨mbuf_copy (mbuf_copy nb (mstrings hc)) (seg tb.data p (tb.last - p)),
    mbuf_copy { tb with last := p } (mstrings tc),
    mbuf_split_eq mstrings st alloc q tb p hc tc nb st' hq hget, ?_⟩
  have hseg : (seg tb.data p (tb.last - p)).length = tb.last - p := by
    unfold seg
    rw [List.length_take, List.length_drop]
    omega
  have ht_last : (mbuf_copy (mbuf_copy nb (mstrings hc))
      (seg tb.data p (tb.last - p))).last
      = (mstrings hc).length + (tb.last - p) := by
    rw [mbuf_copy_last, mbuf_copy_last, hl0, hseg]
    omega
  have ht_pos : (mbuf_copy (mbuf_copy nb (mstrings hc))
      (seg tb.data p (tb.last - p))).pos = 0 := by
    rw [mbuf_copy_pos, mbuf_copy_pos, hp0]
  have htb2_last : (mbuf_copy { tb with last := p } (mstrings tc)).last
      = p + (mstrings tc).length := mbuf_copy_last _ _
  have htb2_pos : (mbuf_copy { tb with last := p } (mstrings tc)).pos
      = tb.pos := mbuf_copy_pos _ _
  unfold mbuf_length
  rw [ht_last, ht_pos, htb2_last, htb2_pos]
  omega

/-- C3 witness: in the concrete split of the C1 witness, the byte-count
balance holds: `(2 - 1) + (2 - 1) = 2`. -/
theorem mbuf_split_preserves_byte_count_witness :
    ∃ t tb2 : Mbuf,
      mbuf_split (fun c => [c]) ⟨[⟨5, [0, 0, 0, 0], 3, 3⟩], 1⟩ none
          [⟨1, [10, 11, 12, 13], 1, 3⟩] 2 7 9
        = (some t,
           ([⟨1, [10, 11, 12, 13], 1, 3⟩] : List Mbuf).dropLast ++ [tb2],
           ⟨[], 0⟩) ∧
      (mbuf_length tb2 - 1) + (mbuf_length t - 1)
        = mbuf_length ⟨1, [10, 11, 12, 13], 1, 3⟩ :=
  mbuf_split_preserves_byte_count (fun c => [c])
    ⟨[⟨5, [0, 0, 0, 0], 3, 3⟩], 1⟩ none
    [⟨1, [10, 11, 12, 13], 1, 3⟩] ⟨1, [10, 11, 12, 13], 1, 3⟩ 2 7 9
    ⟨5, [0, 0, 0, 0], 0, 0⟩ ⟨[], 0⟩ (by decide) rfl
    (by decide) (by decide) (by decide)

/-- Preparatory step: the assertion checks met during a split whose
acquisition succeeded, spelled out. -/
theorem mbuf_split_safe_eq (mstrings : Nat → List Nat) (st : PoolState)
    (alloc : Option Mbuf) (q : List Mbuf) (tb : Mbuf) (p : Nat) (hc tc : Nat)
    (nb : Mbuf) (st' : PoolState)
    (hq : q.getLast? = some tb) (hget : mbuf_get st alloc = some (nb, st')) :
    mbuf_split_safe mstrings st alloc q p hc tc =
      (mbuf_copy_checks nb (mstrings hc).length true &&
       mbuf_copy_checks (mbuf_copy nb (mstrings hc)) (tb.last - p) true &&
       mbuf_copy_checks { tb with last := p } (mstrings tc).length true) := by
  unfold mbuf_split_safe
  rw [hq, hget]
  rfl

/-- C9: under the spec's split preconditions, no fatal `mbuf_copy`
assertion fires exactly when, additionally, the head literal plus the
moved bytes fit in the freshly acquired buffer and the tail literal fits
in the truncated tail's remaining capacity; and a successful acquisition
always yields a returned buffer (the capacity violations are assertion
failures, never the recoverable `NULL` result). -/
theorem mbuf_split_capacity_safety (mstrings : Nat → List Nat)
    (st : PoolState) (alloc : Option Mbuf) (q : List Mbuf) (tb : Mbuf)
    (p : Nat) (hc tc : Nat) (nb : Mbuf) (st' : PoolState)
    (hq : q.getLast? = some tb)
    (hget : mbuf_get st alloc = some (nb, st'))
    (_h1 : tb.pos ≤ p) (h2 : p ≤ tb.last)
    (h3 : tb.last ≤ tb.data.length) :
    (mbuf_split_safe mstrings st alloc q p hc tc = true ↔
      ((mstrings hc).length + (tb.last - p) ≤ nb.data.length ∧
       (mstrings tc).length ≤ tb.data.length - p)) ∧
    (mbuf_split mstrings st alloc q p hc tc).1.isSome = true := by
  obtain ⟨hp0, hl0⟩ := mbuf_get_reset_cursors st alloc nb st' hget
  constructor
  · rw [mbuf_split_safe_eq mstrings st alloc q tb p hc tc nb st' hq hget]
    have s1 : mbuf_size nb = nb.data.length := by
      unfold mbuf_size
      rw [hl0, Nat.sub_zero]
    have hwf2 : nb.last ≤ nb.data.length := by
      rw [hl0]; exact Nat.zero_le _
    have s2 : mbuf_size (mbuf_copy nb (mstrings hc))
        = max nb.data.length (mstrings hc).length - (mstrings hc).length := by
      unfold mbuf_size
      rw [mbuf_copy_last, mbuf_copy_data_length nb _ hwf2, hl0]
      simp
    have s3 : mbuf_size { tb with last := p } = tb.data.length - p := rfl
    simp only [mbuf_copy_checks, mbuf_full, s1, s2, s3, Bool.and_true,
      Bool.and_eq_true, Bool.or_eq_true, beq_iff_eq, Bool.not_eq_true',
      beq_eq_false_iff_ne, ne_eq, decide_eq_true_eq]
    omega
  · rw [mbuf_split_eq mstrings st alloc q tb p hc tc nb st' hq hget]
    rfl

/-- C9 witness: for the concrete split of the C1 witness the capacity
conditions hold (`1 + 1 ≤ 4` and `1 ≤ 2`), so no assertion fires, and the
split returns a buffer. -/
theorem mbuf_split_capacity_safety_witness :
    (mbuf_split_safe (fun c => [c]) ⟨[⟨5, [0, 0, 0, 0], 3, 3⟩], 1⟩ none
        [⟨1, [10, 11, 12, 13], 1, 3⟩] 2 7 9 = true ↔
      (1 + (3 - 2) ≤ 4 ∧ 1 ≤ 4 - 2)) ∧
    (mbuf_split (fun c => [c]) ⟨[⟨5, [0, 0, 0, 0], 3, 3⟩], 1⟩ none
        [⟨1, [10, 11, 12, 13], 1, 3⟩] 2 7 9).1.isSome = true :=
  mbuf_split_capacity_safety (fun c => [c])
    ⟨[⟨5, [0, 0, 0, 0], 3, 3⟩], 1⟩ none
    [⟨1, [10, 11, 12, 13], 1, 3⟩] ⟨1, [10, 11, 12, 13], 1, 3⟩ 2 7 9
    ⟨5, [0, 0, 0, 0], 0, 0⟩ ⟨[], 0⟩ (by decide) rfl
    (by decide) (by decide) (by decide)

/-- C8 witness: draining a pool holding two buffers empties it, zeroes the
counter and frees both buffers in queue order. -/
theorem mbuf_deinit_drains_witness :
    (mbuf_deinit ⟨[⟨1, [], 0, 0⟩, ⟨2, [], 0, 0⟩], 2⟩).1.free_mbufq = [] ∧
    (mbuf_deinit ⟨[⟨1, [], 0, 0⟩, ⟨2, [], 0, 0⟩], 2⟩).1.nfree_mbufq = 0 ∧
    (mbuf_deinit ⟨[⟨1, [], 0, 0⟩, ⟨2, [], 0, 0⟩], 2⟩).2
      = [⟨1, [], 0, 0⟩, ⟨2, [], 0, 0⟩] ∧
    (([⟨1, [], 0, 0⟩, ⟨2, [], 0, 0⟩] : List Mbuf) = [] →
      mbuf_deinit ⟨[⟨1, [], 0, 0⟩, ⟨2, [], 0, 0⟩], 2⟩
        = (⟨[⟨1, [], 0, 0⟩, ⟨2, [], 0, 0⟩], 2⟩, [])) :=
  mbuf_deinit_drains ⟨[⟨1, [], 0, 0⟩, ⟨2, [], 0, 0⟩], 2⟩ rfl

end NcMbuf
